import Mathlib

/-!
Verification development for the `bqdc` repository: a synchronization engine
that reconciles table- and field-level descriptions between a primary schema
store (BigQuery) and a tag store (Data Catalog).

The repository ships the engine as the Python module `bqdc.py`; the sources
available here are its README and the three Jupyter front-ends
(`download.ipynb`, `upload.ipynb`, the upload notebook, `synchronize.ipynb`),
which document the engine's behaviour.  The engine itself is therefore
modelled from the specification (each such definition says so in its doc
comment), faithful to the spec's per-entity algorithm (spec section 4.3), the
writer contract (section 4.4) and the batch orchestrator (section 4.5).
-/

namespace Bqdc

/-- Modelled from the spec: the direction of a `SyncDecision` (spec section 3),
one of `NONE`, `PUSH_TO_TAG`, `PUSH_TO_SCHEMA`. -/
inductive Direction where
  | NONE
  | PUSH_TO_TAG
  | PUSH_TO_SCHEMA
deriving DecidableEq, Repr

/-- Modelled from the spec: `SyncDecision`, the Reconciliation Engine's output
for one entity: a direction and the value to write, present only when the
direction is not `NONE`. -/
structure SyncDecision where
  direction : Direction
  value : Option String
deriving DecidableEq, Repr

/-- Modelled from the spec: normalization of a description value (spec section
4.3 step 1): absent, null and the zero-length string are all "empty"; a
non-empty string is "present". -/
def normVal : Option String → Option String
  | none => none
  | some s => if s = "" then none else some s

/-- Modelled from the spec: the per-entity reconciliation algorithm (spec
section 4.3 steps 1-6), given the schema-side value and the tag-side value:
both empty yields `NONE`; both present and (exactly) equal yields `NONE`;
schema present and tag empty yields `PUSH_TO_TAG` with the schema value; tag
present and schema empty yields `PUSH_TO_SCHEMA` with the tag value; both
present and different yields `PUSH_TO_TAG` with the schema value (the schema
side is authoritative). -/
def reconcileEntity (schemaVal tagVal : Option String) : SyncDecision :=
  match normVal schemaVal, normVal tagVal with
  | none, none => ⟨.NONE, none⟩
  | some s, none => ⟨.PUSH_TO_TAG, some s⟩
  | none, some t => ⟨.PUSH_TO_SCHEMA, some t⟩
  | some s, some t => if s = t then ⟨.NONE, none⟩ else ⟨.PUSH_TO_TAG, some s⟩

/-- Modelled from the spec: a tag in the tag store: its description attribute
(read through the fixed attribute key) plus whatever other attributes the tag
template carries. -/
structure Tag where
  description : Option String
  otherAttrs : List (String × String)
deriving DecidableEq, Repr

/-- The tag-side description value of an attachment point: absent when no tag
exists there, otherwise the tag's description attribute. -/
def tagDesc : Option Tag → Option String
  | none => none
  | some t => t.description

/-- Modelled from the spec: the Writer's tag write (spec section 4.4): if no
tag exists yet at the attachment point, create one with the description
attribute set to the value; if a tag exists, update only the description
attribute, leaving all other attributes untouched. -/
def pushTag (v : String) : Option Tag → Tag
  | none => ⟨some v, []⟩
  | some t => { t with description := some v }

/-- Modelled from the spec: applying one `SyncDecision` to one entity's state
(its schema-side description and its tag), spec section 4.4: `NONE` is a
no-op; `PUSH_TO_SCHEMA` updates the primary store's description;
`PUSH_TO_TAG` creates or updates the tag's description attribute. -/
def applyEntityDecision (d : SyncDecision) (sd : Option String) (tag : Option Tag) :
    Option String × Option Tag :=
  match d.direction, d.value with
  | .NONE, _ => (sd, tag)
  | .PUSH_TO_SCHEMA, some v => (some v, tag)
  | .PUSH_TO_SCHEMA, none => (sd, tag)
  | .PUSH_TO_TAG, some v => (sd, some (pushTag v tag))
  | .PUSH_TO_TAG, none => (sd, tag)

/-- One reconcile-then-apply cycle on one entity: compute the decision for the
current (schema-side, tag-side) pair and apply it. -/
def syncEntity (sd : Option String) (tag : Option Tag) : Option String × Option Tag :=
  applyEntityDecision (reconcileEntity sd (tagDesc tag)) sd tag

/-- Number of writes one decision performs: `NONE` decisions are no-ops and
are not counted as writes (spec section 4.4). -/
def decisionWrites (d : SyncDecision) : Nat :=
  match d.direction with
  | .NONE => 0
  | _ => 1

/-- Modelled from the spec: the state of one field (one column) of a table as
seen across the two stores: its name, its schema-side description
(`FieldDescriptor.schema_description`) and the tag attached to it in the tag
store, if any. -/
structure FieldState where
  name : String
  schemaDesc : Option String
  tag : Option Tag
deriving DecidableEq, Repr

/-- Modelled from the spec: the state of one table across the two stores: its
id, its schema-side description, the table-level tag (if any) and its fields
in schema column order. -/
structure TableState where
  id : String
  schemaDesc : Option String
  tableTag : Option Tag
  fields : List FieldState
deriving DecidableEq, Repr

/-- Modelled from the spec: the combined state of the two stores for one
dataset: the list of its tables. -/
structure DatasetState where
  tables : List TableState
deriving DecidableEq, Repr

/-- Modelled from the spec: the decisions `reconcile` computes for one table:
one decision for the table itself and one per field, in field order (spec
section 4.3). -/
def reconcileTable (t : TableState) : SyncDecision × List SyncDecision :=
  (reconcileEntity t.schemaDesc (tagDesc t.tableTag),
   t.fields.map fun f => reconcileEntity f.schemaDesc (tagDesc f.tag))

/-- One reconcile-then-apply cycle on one field. -/
def syncField (f : FieldState) : FieldState :=
  let p := syncEntity f.schemaDesc f.tag
  { f with schemaDesc := p.1, tag := p.2 }

/-- Modelled from the spec: applying the whole update plan of one table (spec
section 4.4): the table-level decision to the table entity and each field's
decision to that field. -/
def syncTable (t : TableState) : TableState :=
  let p := syncEntity t.schemaDesc t.tableTag
  { t with schemaDesc := p.1, tableTag := p.2, fields := t.fields.map syncField }

/-- Table-level write count of one table's plan. -/
def tableWriteCount (t : TableState) : Nat :=
  decisionWrites (reconcileTable t).1

/-- Field-level write count of one table's plan. -/
def fieldWriteCount (t : TableState) : Nat :=
  ((reconcileTable t).2.map decisionWrites).sum

/-- Modelled from the spec: the error kinds of section 7.  Only
`TableNotFound` can arise at the orchestrator level in this model (the two
write error kinds belong to the external stores). -/
inductive ErrKind where
  | TableNotFound
  | SchemaWriteError
  | TagWriteError
deriving DecidableEq, Repr

/-- Modelled from the spec: one per-table outcome in a `RunReport`: success
with write counts, or failure with an error kind (spec section 4.5). -/
inductive TableOutcome where
  | success (tableId : String) (tableWrites fieldWrites : Nat)
  | failure (tableId : String) (err : ErrKind)
deriving DecidableEq, Repr

/-- The table id an outcome reports on. -/
def TableOutcome.tableId' : TableOutcome → String
  | .success id _ _ => id
  | .failure id _ => id

/-- Table-level writes an outcome reports (failures report none). -/
def TableOutcome.tableWrites' : TableOutcome → Nat
  | .success _ tw _ => tw
  | .failure _ _ => 0

/-- Field-level writes an outcome reports (failures report none). -/
def TableOutcome.fieldWrites' : TableOutcome → Nat
  | .success _ _ fw => fw
  | .failure _ _ => 0

/-- Whether an outcome is a failure. -/
def TableOutcome.isFailure : TableOutcome → Bool
  | .success _ _ _ => false
  | .failure _ _ => true

/-- Modelled from the spec: the `RunReport` (spec section 4.5): the per-table
outcomes plus the summary tally. -/
structure RunReport where
  outcomes : List TableOutcome
  tablesProcessed : Nat
  tablesFailed : Nat
  totalTableWrites : Nat
  totalFieldWrites : Nat
deriving DecidableEq, Repr

/-- Build the summary tally of a `RunReport` from the outcomes. -/
def mkReport (os : List TableOutcome) : RunReport :=
  { outcomes := os
    tablesProcessed := os.length
    tablesFailed := (os.filter TableOutcome.isFailure).length
    totalTableWrites := (os.map TableOutcome.tableWrites').sum
    totalFieldWrites := (os.map TableOutcome.fieldWrites').sum }

/-- `readTable`'s lookup (spec section 4.2): the first table of the dataset
with the given id, or `none` (which `readTable` reports as `TableNotFound`). -/
def findTable (s : DatasetState) (id : String) : Option TableState :=
  s.tables.find? fun t => t.id == id

/-- Replace the first element satisfying `p` by `x` (the Writer updates the
one table the current cycle read). -/
def updateFirst (p : α → Bool) (x : α) : List α → List α
  | [] => []
  | a :: as => if p a then x :: as else a :: updateFirst p x as

/-- Write back the processed table into the dataset state. -/
def updateTable (s : DatasetState) (id : String) (t : TableState) : DatasetState :=
  ⟨updateFirst (fun u => u.id == id) t s.tables⟩

/-- Modelled from the spec: the Batch Orchestrator's loop (spec section 4.5):
for each requested table id, sequentially `readTable`, `reconcile`, `apply`;
a table whose read fails (`TableNotFound`) is recorded as failed and the run
continues with the next table.  Returns the final state of the two stores and
the per-table outcomes in request order. -/
def runTables (s : DatasetState) : List String → DatasetState × List TableOutcome
  | [] => (s, [])
  | id :: rest =>
    match findTable s id with
    | none =>
      let r := runTables s rest
      (r.1, .failure id .TableNotFound :: r.2)
    | some t =>
      let r := runTables (updateTable s id (syncTable t)) rest
      (r.1, .success id (tableWriteCount t) (fieldWriteCount t) :: r.2)

/-- Modelled from the spec: `run(datasetRef, tableIds) -> RunReport` (spec
section 4.5), returning also the resulting state of the two stores. -/
def run (s : DatasetState) (ids : List String) : DatasetState × RunReport :=
  let r := runTables s ids
  (r.1, mkReport r.2)

/-! ### Entity-level lemmas -/

theorem normVal_of_ne {s : String} (h : s ≠ "") : normVal (some s) = some s := by
  simp [normVal, h]

theorem normVal_some_iff (v : Option String) (s : String) :
    normVal v = some s ↔ v = some s ∧ s ≠ "" := by
  cases v with
  | none => simp [normVal]
  | some t =>
    by_cases ht : t = ""
    · subst ht
      simp only [normVal, if_pos rfl]
      constructor
      · intro h
        exact Option.noConfusion h
      · rintro ⟨h, hs⟩
        exact absurd (Option.some.inj h).symm hs
    · rw [normVal_of_ne ht]
      constructor
      · intro h
        exact ⟨h, Option.some.inj h ▸ ht⟩
      · rintro ⟨h, _⟩
        exact h

theorem pushTag_description (v : String) (tag : Option Tag) :
    (pushTag v tag).description = some v := by
  cases tag <;> rfl

theorem applyEntityDecision_none (v : Option String) (sd : Option String) (tag : Option Tag) :
    applyEntityDecision ⟨.NONE, v⟩ sd tag = (sd, tag) := rfl

/-- A decision with direction `NONE` applies as the identity. -/
theorem applyEntityDecision_of_NONE {d : SyncDecision} (h : d.direction = .NONE)
    (sd : Option String) (tag : Option Tag) :
    applyEntityDecision d sd tag = (sd, tag) := by
  cases d with
  | mk dir v => cases h; rfl

/-- If the entity's decision is `NONE`, the sync cycle leaves it unchanged. -/
theorem syncEntity_of_NONE {sd : Option String} {tag : Option Tag}
    (h : (reconcileEntity sd (tagDesc tag)).direction = .NONE) :
    syncEntity sd tag = (sd, tag) := by
  unfold syncEntity
  exact applyEntityDecision_of_NONE h sd tag

/-- Case analysis on one sync cycle: the explicit result of `syncEntity` in
each of the four normalized-input cases. -/
theorem syncEntity_cases (sd : Option String) (tag : Option Tag) :
    (normVal sd = none ∧ normVal (tagDesc tag) = none ∧ syncEntity sd tag = (sd, tag)) ∨
    (∃ s, normVal sd = some s ∧ normVal (tagDesc tag) = none ∧
      syncEntity sd tag = (sd, some (pushTag s tag))) ∨
    (∃ t, normVal sd = none ∧ normVal (tagDesc tag) = some t ∧
      syncEntity sd tag = (some t, tag)) ∨
    (∃ s t, normVal sd = some s ∧ normVal (tagDesc tag) = some t ∧
      ((s = t ∧ syncEntity sd tag = (sd, tag)) ∨
       (s ≠ t ∧ syncEntity sd tag = (sd, some (pushTag s tag))))) := by
  rcases h1 : normVal sd with _ | s <;> rcases h2 : normVal (tagDesc tag) with _ | t
  · exact Or.inl ⟨rfl, rfl, by simp only [syncEntity, reconcileEntity, h1, h2,
      applyEntityDecision]⟩
  · refine Or.inr (Or.inr (Or.inl ⟨t, rfl, rfl, ?_⟩))
    simp only [syncEntity, reconcileEntity, h1, h2, applyEntityDecision]
  · refine Or.inr (Or.inl ⟨s, rfl, rfl, ?_⟩)
    simp only [syncEntity, reconcileEntity, h1, h2, applyEntityDecision]
  · refine Or.inr (Or.inr (Or.inr ⟨s, t, rfl, rfl, ?_⟩))
    by_cases hst : s = t
    · exact Or.inl ⟨hst, by simp only [syncEntity, reconcileEntity, h1, h2, if_pos hst,
        applyEntityDecision]⟩
    · exact Or.inr ⟨hst, by simp only [syncEntity, reconcileEntity, h1, h2, if_neg hst,
        applyEntityDecision]⟩

/-- Convergence: after one sync cycle on an entity, reconciling again yields
`NONE`. -/
theorem syncEntity_NONE (sd : Option String) (tag : Option Tag) :
    (reconcileEntity (syncEntity sd tag).1 (tagDesc (syncEntity sd tag).2)).direction
      = .NONE := by
  rcases syncEntity_cases sd tag with ⟨h1, h2, he⟩ | ⟨s, h1, h2, he⟩ |
      ⟨t, h1, h2, he⟩ | ⟨s, t, h1, h2, ⟨hst, he⟩ | ⟨hst, he⟩⟩
  · rw [he]
    simp [reconcileEntity, h1, h2]
  · rw [he]
    have hs := (normVal_some_iff _ _).mp h1
    simp [reconcileEntity, h1, tagDesc, pushTag_description, normVal_of_ne hs.2]
  · rw [he]
    have ht := (normVal_some_iff _ _).mp h2
    simp [reconcileEntity, h2, normVal_of_ne ht.2]
  · subst hst
    rw [he]
    simp [reconcileEntity, h1, h2]
  · rw [he]
    have hs := (normVal_some_iff _ _).mp h1
    simp [reconcileEntity, h1, tagDesc, pushTag_description, normVal_of_ne hs.2]

/-- The sync cycle never deletes a tag: if the entity has a tag, it still has
one afterwards. -/
theorem syncEntity_tag_isSome {sd : Option String} {tag : Option Tag}
    (h : tag.isSome = true) : (syncEntity sd tag).2.isSome = true := by
  rcases syncEntity_cases sd tag with ⟨_, _, he⟩ | ⟨s, _, _, he⟩ |
      ⟨t, _, _, he⟩ | ⟨s, t, _, _, ⟨_, he⟩ | ⟨_, he⟩⟩ <;> simp_all [he]

/-- The sync cycle never blanks a present schema-side description; in fact it
leaves the schema side untouched whenever a value is present there. -/
theorem syncEntity_schema_present {sd : Option String} {tag : Option Tag}
    (h : (normVal sd).isSome = true) :
    (syncEntity sd tag).1 = sd := by
  rcases syncEntity_cases sd tag with ⟨h1, _, he⟩ | ⟨s, h1, _, he⟩ |
      ⟨t, h1, _, he⟩ | ⟨s, t, h1, _, ⟨_, he⟩ | ⟨_, he⟩⟩ <;> simp_all [he]

/-- The sync cycle never blanks a present tag-side description. -/
theorem syncEntity_tag_present {sd : Option String} {tag : Option Tag}
    (h : (normVal (tagDesc tag)).isSome = true) :
    (normVal (tagDesc (syncEntity sd tag).2)).isSome = true := by
  rcases syncEntity_cases sd tag with ⟨h1, h2, he⟩ | ⟨s, h1, h2, he⟩ |
      ⟨t, h1, h2, he⟩ | ⟨s, t, h1, h2, ⟨hst, he⟩ | ⟨hst, he⟩⟩
  · rw [he]; exact h
  · rw [h2] at h; simp at h
  · rw [he]; exact h
  · rw [he]; exact h
  · rw [he]
    have hs := (normVal_some_iff _ _).mp h1
    simp [tagDesc, pushTag_description, normVal_of_ne hs.2]

/-! ### Table-level lemmas -/

theorem syncField_name (f : FieldState) : (syncField f).name = f.name := rfl

theorem syncTable_id (t : TableState) : (syncTable t).id = t.id := rfl

theorem syncTable_fields (t : TableState) :
    (syncTable t).fields = t.fields.map syncField := rfl

/-- A table is converged when every decision of its plan is `NONE`. -/
def tableConverged (t : TableState) : Prop :=
  (reconcileTable t).1.direction = .NONE ∧
  ∀ d ∈ (reconcileTable t).2, d.direction = .NONE

/-- After one sync cycle, a table is converged. -/
theorem syncTable_converged (t : TableState) : tableConverged (syncTable t) := by
  constructor
  · exact syncEntity_NONE t.schemaDesc t.tableTag
  · intro d hd
    simp only [reconcileTable, syncTable_fields, List.map_map, List.mem_map] at hd
    obtain ⟨f, _, hf⟩ := hd
    rw [← hf]
    exact syncEntity_NONE f.schemaDesc f.tag

/-- Syncing a converged table changes nothing. -/
theorem syncTable_of_converged {t : TableState} (h : tableConverged t) :
    syncTable t = t := by
  obtain ⟨h1, h2⟩ := h
  have hs : syncEntity t.schemaDesc t.tableTag = (t.schemaDesc, t.tableTag) :=
    syncEntity_of_NONE h1
  have hf : t.fields.map syncField = t.fields := by
    have step : ∀ f ∈ t.fields, syncField f = f := by
      intro f hf
      have : (reconcileEntity f.schemaDesc (tagDesc f.tag)).direction = .NONE := by
        apply h2
        simp only [reconcileTable, List.mem_map]
        exact ⟨f, hf, rfl⟩
      simp only [syncField, syncEntity_of_NONE this]
    rw [List.map_congr_left step, List.map_id']
  cases t with
  | mk id sd tg fs =>
    simp only [syncTable, syncTable_fields] at *
    rw [hs, hf]

theorem decisionWrites_eq_zero {d : SyncDecision} (h : d.direction = .NONE) :
    decisionWrites d = 0 := by
  simp [decisionWrites, h]

/-- A converged table's plan performs no writes. -/
theorem converged_counts_zero {t : TableState} (h : tableConverged t) :
    tableWriteCount t = 0 ∧ fieldWriteCount t = 0 := by
  obtain ⟨h1, h2⟩ := h
  refine ⟨decisionWrites_eq_zero h1, ?_⟩
  simp only [fieldWriteCount]
  apply List.sum_eq_zero
  intro n hn
  simp only [List.mem_map] at hn
  obtain ⟨d, hd, hw⟩ := hn
  rw [← hw]
  exact decisionWrites_eq_zero (h2 d hd)

/-! ### List helper lemmas about `updateFirst` and `List.find?` -/

theorem updateFirst_length (p : α → Bool) (x : α) (l : List α) :
    (updateFirst p x l).length = l.length := by
  induction l with
  | nil => rfl
  | cons a as ih =>
    simp only [updateFirst]
    by_cases hp : p a
    · simp [hp]
    · simp [hp, ih]

theorem find?_updateFirst_self {p : α → Bool} {x : α} {l : List α}
    (hl : (l.find? p).isSome = true) (hx : p x = true) :
    (updateFirst p x l).find? p = some x := by
  induction l with
  | nil => simp [List.find?] at hl
  | cons a as ih =>
    by_cases hp : p a
    · simp only [updateFirst, if_pos hp]
      exact List.find?_cons_of_pos _ hx
    · simp only [updateFirst, if_neg hp]
      rw [List.find?_cons_of_neg _ (by simp [hp])]
      rw [List.find?_cons_of_neg _ (by simp [hp])] at hl
      exact ih hl

theorem find?_updateFirst_isSome (p q : α → Bool) (x : α) (l : List α)
    (hc : ∀ a, p a = true → q a = q x) :
    ((updateFirst p x l).find? q).isSome = (l.find? q).isSome := by
  induction l with
  | nil => rfl
  | cons a as ih =>
    by_cases hp : p a
    · simp only [updateFirst, if_pos hp]
      have hq : q a = q x := hc a hp
      by_cases hqx : q x = true
      · rw [List.find?_cons_of_pos _ hqx, List.find?_cons_of_pos _ (hq.trans hqx)]
        rfl
      · rw [List.find?_cons_of_neg _ (by simp_all), List.find?_cons_of_neg _ (by simp_all)]
    · simp only [updateFirst, if_neg hp]
      by_cases hqa : q a = true
      · rw [List.find?_cons_of_pos _ hqa, List.find?_cons_of_pos _ hqa]
      · rw [List.find?_cons_of_neg _ (by simp_all), List.find?_cons_of_neg _ (by simp_all)]
        exact ih

theorem find?_updateFirst_of_ne (p q : α → Bool) (x : α) (l : List α)
    (hc : ∀ a, p a = true → q a = false) (hx : q x = false) :
    (updateFirst p x l).find? q = l.find? q := by
  induction l with
  | nil => rfl
  | cons a as ih =>
    by_cases hp : p a
    · simp only [updateFirst, if_pos hp]
      rw [List.find?_cons_of_neg _ (by simp [hx]),
        List.find?_cons_of_neg _ (by simp [hc a hp])]
    · simp only [updateFirst, if_neg hp]
      by_cases hqa : q a = true
      · rw [List.find?_cons_of_pos _ hqa, List.find?_cons_of_pos _ hqa]
      · rw [List.find?_cons_of_neg _ (by simp_all), List.find?_cons_of_neg _ (by simp_all)]
        exact ih

theorem updateFirst_of_find? {p : α → Bool} {x : α} {l : List α}
    (h : l.find? p = some x) : updateFirst p x l = l := by
  induction l with
  | nil => rfl
  | cons a as ih =>
    by_cases hp : p a
    · rw [List.find?_cons_of_pos _ hp] at h
      simp only [updateFirst, if_pos hp]
      rw [Option.some.inj h]
    · rw [List.find?_cons_of_neg _ (by simp [hp])] at h
      simp only [updateFirst, if_neg hp]
      rw [ih h]

/-! ### Run-level lemmas -/

/-- Any table found under this id in the state is converged. -/
def convergedAt (s : DatasetState) (id : String) : Prop :=
  ∀ t, findTable s id = some t → tableConverged t

theorem findTable_id {s : DatasetState} {id : String} {t : TableState}
    (h : findTable s id = some t) : t.id = id := by
  have := List.find?_some h
  simpa using this

theorem findTable_updateTable_isSome (s : DatasetState) (id' : String) {t : TableState}
    (hfind : findTable s id' = some t) (id : String) :
    (findTable (updateTable s id' (syncTable t)) id).isSome
      = (findTable s id).isSome := by
  apply find?_updateFirst_isSome
  intro a hpa
  have ha : a.id = id' := by simpa using hpa
  have hx : (syncTable t).id = id' := by rw [syncTable_id, findTable_id hfind]
  rw [ha, hx]

theorem convergedAt_updateTable_self (s : DatasetState) (id' : String) {t : TableState}
    (hfind : findTable s id' = some t) :
    convergedAt (updateTable s id' (syncTable t)) id' := by
  intro u hu
  have hsome : (s.tables.find? fun a => a.id == id').isSome = true := by
    simp only [findTable] at hfind
    simp [hfind]
  have hx : ((syncTable t).id == id') = true := by
    simp [syncTable_id, findTable_id hfind]
  have : findTable (updateTable s id' (syncTable t)) id' = some (syncTable t) :=
    find?_updateFirst_self hsome hx
  rw [this] at hu
  rw [← Option.some.inj hu]
  exact syncTable_converged t

theorem convergedAt_updateTable (s : DatasetState) (id' : String) {t : TableState}
    (hfind : findTable s id' = some t) (id : String) (h : convergedAt s id) :
    convergedAt (updateTable s id' (syncTable t)) id := by
  by_cases hid : id' = id
  · subst hid
    exact convergedAt_updateTable_self s id' hfind
  · intro u hu
    apply h
    rw [← hu]
    show findTable s id = findTable (updateTable s id' (syncTable t)) id
    symm
    apply find?_updateFirst_of_ne
    · intro a hpa
      have ha : a.id = id' := by simpa using hpa
      simp [ha, hid]
    · simp [syncTable_id, findTable_id hfind, hid]

theorem runTables_findTable_isSome (ids : List String) (s : DatasetState) (id : String) :
    (findTable (runTables s ids).1 id).isSome = (findTable s id).isSome := by
  induction ids generalizing s with
  | nil => rfl
  | cons id0 rest ih =>
    cases hf : findTable s id0 with
    | none =>
      simp only [runTables, hf]
      exact ih s
    | some t =>
      simp only [runTables, hf]
      rw [ih _, findTable_updateTable_isSome s id0 hf id]

theorem runTables_preserves_convergedAt (ids : List String) (s : DatasetState)
    (id : String) (h : convergedAt s id) : convergedAt (runTables s ids).1 id := by
  induction ids generalizing s with
  | nil => exact h
  | cons id0 rest ih =>
    cases hf : findTable s id0 with
    | none =>
      simp only [runTables, hf]
      exact ih s h
    | some t =>
      simp only [runTables, hf]
      exact ih _ (convergedAt_updateTable s id0 hf id h)

/-- After one batch run, every table named in the batch is converged. -/
theorem runTables_convergedAt (ids : List String) (s : DatasetState)
    (id : String) (hmem : id ∈ ids) : convergedAt (runTables s ids).1 id := by
  induction ids generalizing s with
  | nil => cases hmem
  | cons id0 rest ih =>
    cases hf : findTable s id0 with
    | none =>
      simp only [runTables, hf]
      rcases List.mem_cons.mp hmem with heq | hrest
      · subst heq
        apply runTables_preserves_convergedAt
        intro u hu
        rw [hf] at hu
        cases hu
      · exact ih s hrest
    | some t =>
      simp only [runTables, hf]
      rcases List.mem_cons.mp hmem with heq | hrest
      · subst heq
        apply runTables_preserves_convergedAt
        exact convergedAt_updateTable_self s id hf
      · exact ih _ hrest

/-- On a state whose named tables are all converged, a batch run changes
nothing and reports no writes. -/
theorem runTables_of_convergedAt (ids : List String) (s : DatasetState)
    (h : ∀ id ∈ ids, convergedAt s id) :
    (runTables s ids).1 = s ∧
    ∀ o ∈ (runTables s ids).2,
      TableOutcome.tableWrites' o = 0 ∧ TableOutcome.fieldWrites' o = 0 := by
  induction ids generalizing s with
  | nil => exact ⟨rfl, by intro o ho; cases ho⟩
  | cons id0 rest ih =>
    cases hf : findTable s id0 with
    | none =>
      simp only [runTables, hf]
      obtain ⟨h1, h2⟩ := ih s (fun id hid => h id (List.mem_cons_of_mem _ hid))
      refine ⟨h1, ?_⟩
      intro o ho
      rcases List.mem_cons.mp ho with heq | hrest
      · subst heq
        exact ⟨rfl, rfl⟩
      · exact h2 o hrest
    | some t =>
      have hconv : tableConverged t := h id0 (List.mem_cons_self id0 rest) t hf
      have hsync : syncTable t = t := syncTable_of_converged hconv
      have hupd : updateTable s id0 (syncTable t) = s := by
        simp only [updateTable, hsync]
        have : updateFirst (fun u => u.id == id0) t s.tables = s.tables :=
          updateFirst_of_find? hf
        rw [this]
      simp only [runTables, hf, hupd]
      obtain ⟨h1, h2⟩ := ih s (fun id hid => h id (List.mem_cons_of_mem _ hid))
      refine ⟨h1, ?_⟩
      intro o ho
      rcases List.mem_cons.mp ho with heq | hrest
      · subst heq
        obtain ⟨hw1, hw2⟩ := converged_counts_zero hconv
        exact ⟨hw1, hw2⟩
      · exact h2 o hrest

theorem mkReport_totals_zero {os : List TableOutcome}
    (h : ∀ o ∈ os, TableOutcome.tableWrites' o = 0 ∧ TableOutcome.fieldWrites' o = 0) :
    (mkReport os).totalTableWrites = 0 ∧ (mkReport os).totalFieldWrites = 0 := by
  constructor
  · simp only [mkReport]
    apply List.sum_eq_zero
    intro n hn
    simp only [List.mem_map] at hn
    obtain ⟨o, ho, rfl⟩ := hn
    exact (h o ho).1
  · simp only [mkReport]
    apply List.sum_eq_zero
    intro n hn
    simp only [List.mem_map] at hn
    obtain ⟨o, ho, rfl⟩ := hn
    exact (h o ho).2

/-! ### Claim theorems -/

/-- C1: Idempotence of the batch run: for every dataset state, invoking
`run` and then invoking it again with no intervening external change yields a
second `RunReport` with zero table-level writes and zero field-level writes
(and, in fact, leaves the state of the two stores unchanged). -/
theorem run_idempotent (s : DatasetState) (ids : List String) :
    (run (run s ids).1 ids).2.totalTableWrites = 0 ∧
    (run (run s ids).1 ids).2.totalFieldWrites = 0 ∧
    (run (run s ids).1 ids).1 = (run s ids).1 := by
  have hconv : ∀ id ∈ ids, convergedAt (runTables s ids).1 id :=
    fun id hid => runTables_convergedAt ids s id hid
  obtain ⟨h1, h2⟩ := runTables_of_convergedAt ids (runTables s ids).1 hconv
  have htot := mkReport_totals_zero h2
  exact ⟨htot.1, htot.2, h1⟩

/-- C2: Conflict policy: when the schema-side and tag-side values are both
non-empty and differ (exact string inequality), `reconcile` yields
`PUSH_TO_TAG` carrying the schema-side value, so after the cycle the tag side
equals the schema-side value and the schema side is unchanged. -/
theorem conflict_policy (a b : String) (tag : Option Tag)
    (ha : a ≠ "") (hb : b ≠ "") (hab : a ≠ b) (htag : tagDesc tag = some b) :
    reconcileEntity (some a) (tagDesc tag) = ⟨.PUSH_TO_TAG, some a⟩ ∧
    (syncEntity (some a) tag).1 = some a ∧
    tagDesc (syncEntity (some a) tag).2 = some a := by
  have h1 : normVal (some a) = some a := normVal_of_ne ha
  have h2 : normVal (tagDesc tag) = some b := by rw [htag]; exact normVal_of_ne hb
  have hrec : reconcileEntity (some a) (tagDesc tag) = ⟨.PUSH_TO_TAG, some a⟩ := by
    simp [reconcileEntity, h1, h2, hab]
  refine ⟨hrec, ?_, ?_⟩
  · simp only [syncEntity, hrec, applyEntityDecision]
  · simp only [syncEntity, hrec, applyEntityDecision]
    simp [tagDesc, pushTag_description]

/-- Witness for C2 at the concrete conflict schema = "A", tag = "B". -/
theorem conflict_policy_witness :
    reconcileEntity (some "A") (tagDesc (some ⟨some "B", []⟩))
      = ⟨.PUSH_TO_TAG, some "A"⟩ ∧
    (syncEntity (some "A") (some ⟨some "B", []⟩)).1 = some "A" ∧
    tagDesc (syncEntity (some "A") (some ⟨some "B", []⟩)).2 = some "A" :=
  conflict_policy "A" "B" (some ⟨some "B", []⟩)
    (by decide) (by decide) (by decide) rfl

/-- C3: Symmetry of propagation: when exactly one side holds a non-empty
description, `reconcile` pushes that value to the other side
(`PUSH_TO_TAG` carrying the schema value, resp. `PUSH_TO_SCHEMA` carrying the
tag value), and after the cycle both sides hold that same value. -/
theorem propagation_symmetry (sd : Option String) (tag : Option Tag) (v : String) :
    (normVal sd = some v → normVal (tagDesc tag) = none →
      reconcileEntity sd (tagDesc tag) = ⟨.PUSH_TO_TAG, some v⟩ ∧
      (syncEntity sd tag).1 = some v ∧ tagDesc (syncEntity sd tag).2 = some v) ∧
    (normVal sd = none → normVal (tagDesc tag) = some v →
      reconcileEntity sd (tagDesc tag) = ⟨.PUSH_TO_SCHEMA, some v⟩ ∧
      (syncEntity sd tag).1 = some v ∧ tagDesc (syncEntity sd tag).2 = some v) := by
  constructor
  · intro h1 h2
    have hsd : sd = some v := ((normVal_some_iff _ _).mp h1).1
    have hrec : reconcileEntity sd (tagDesc tag) = ⟨.PUSH_TO_TAG, some v⟩ := by
      simp [reconcileEntity, h1, h2]
    refine ⟨hrec, ?_, ?_⟩
    · simp only [syncEntity, hrec, applyEntityDecision]
      exact hsd
    · simp only [syncEntity, hrec, applyEntityDecision]
      simp [tagDesc, pushTag_description]
  · intro h1 h2
    have htd : tagDesc tag = some v := ((normVal_some_iff _ _).mp h2).1
    have hrec : reconcileEntity sd (tagDesc tag) = ⟨.PUSH_TO_SCHEMA, some v⟩ := by
      simp [reconcileEntity, h1, h2]
    refine ⟨hrec, ?_, ?_⟩
    · simp only [syncEntity, hrec, applyEntityDecision]
    · simp only [syncEntity, hrec, applyEntityDecision]
      exact htd

/-- Witness for C3 at the concrete inputs (schema "D", no tag) and
(no schema description, tag "E"). -/
theorem propagation_symmetry_witness :
    (reconcileEntity (some "D") (tagDesc (none : Option Tag))
        = ⟨.PUSH_TO_TAG, some "D"⟩ ∧
      (syncEntity (some "D") none).1 = some "D" ∧
      tagDesc (syncEntity (some "D") none).2 = some "D") ∧
    (reconcileEntity none (tagDesc (some ⟨some "E", []⟩))
        = ⟨.PUSH_TO_SCHEMA, some "E"⟩ ∧
      (syncEntity none (some ⟨some "E", []⟩)).1 = some "E" ∧
      tagDesc (syncEntity none (some ⟨some "E", []⟩)).2 = some "E") :=
  ⟨(propagation_symmetry (some "D") none "D").1 (by decide) rfl,
   (propagation_symmetry none (some ⟨some "E", []⟩) "E").2 rfl (by decide)⟩

/-- C4: `reconcile` yields `NONE` for an entity if and only if the two sides
are equal after empty-normalization (absent, null and `""` all count as
empty, and equality of two present values is exact string equality); in
particular, schema absent together with tag `""` yields `NONE`, hence zero
writes. -/
theorem noop_iff_equal (sd td : Option String) :
    ((reconcileEntity sd td).direction = .NONE ↔ normVal sd = normVal td) ∧
    reconcileEntity none (some "") = ⟨.NONE, none⟩ ∧
    decisionWrites (reconcileEntity none (some "")) = 0 := by
  refine ⟨?_, by decide, by decide⟩
  rcases h1 : normVal sd with _ | s <;> rcases h2 : normVal td with _ | t
  · simp [reconcileEntity, h1, h2]
  · simp [reconcileEntity, h1, h2]
  · simp [reconcileEntity, h1, h2]
  · by_cases hst : s = t
    · subst hst
      simp [reconcileEntity, h1, h2]
    · simp [reconcileEntity, h1, h2, hst]

/-- C6: Frame condition of the Writer: applying a `PUSH_TO_TAG` decision
where a tag already exists updates only that tag's description attribute and
leaves every other attribute unchanged; where no tag exists it creates one
with the description attribute set to the decision's value.  The schema side
is untouched either way. -/
theorem writer_frame (v : String) (sd : Option String) (tag : Option Tag) :
    (applyEntityDecision ⟨.PUSH_TO_TAG, some v⟩ sd tag).1 = sd ∧
    (∀ t, tag = some t →
      (applyEntityDecision ⟨.PUSH_TO_TAG, some v⟩ sd tag).2 = some (pushTag v (some t)) ∧
      (pushTag v (some t)).description = some v ∧
      (pushTag v (some t)).otherAttrs = t.otherAttrs) ∧
    (tag = none →
      (applyEntityDecision ⟨.PUSH_TO_TAG, some v⟩ sd tag).2 = some ⟨some v, []⟩) := by
  refine ⟨rfl, ?_, ?_⟩
  · intro t ht
    subst ht
    exact ⟨rfl, rfl, rfl⟩
  · intro ht
    subst ht
    rfl

/-- Witness for C6 at a concrete existing tag carrying another attribute, and
at a missing tag. -/
theorem writer_frame_witness :
    ((applyEntityDecision ⟨.PUSH_TO_TAG, some "V"⟩ none
        (some ⟨some "old", [("color", "blue")]⟩)).2
      = some (pushTag "V" (some ⟨some "old", [("color", "blue")]⟩)) ∧
     (pushTag "V" (some ⟨some "old", [("color", "blue")]⟩)).description = some "V" ∧
     (pushTag "V" (some ⟨some "old", [("color", "blue")]⟩)).otherAttrs
      = [("color", "blue")]) ∧
    (applyEntityDecision ⟨.PUSH_TO_TAG, some "V"⟩ none (none : Option Tag)).2
      = some ⟨some "V", []⟩ :=
  ⟨(writer_frame "V" none (some ⟨some "old", [("color", "blue")]⟩)).2.1 _ rfl,
   (writer_frame "V" none none).2.2 rfl⟩

/-! ### The list-based `reconcile` interface and its determinism (C8) -/

/-- Modelled from the spec: the attachment point of a tag: a table or a
(table, field) pair (spec section 3, `TagValue.attached_to`). -/
inductive Attachment where
  | table (tableId : String)
  | field (tableId fieldName : String)
deriving DecidableEq, Repr

/-- Modelled from the spec: `TagValue` (spec section 3): one attribute
attached by the tag store to a table or field, read through the fixed
attribute key. -/
structure TagValue where
  attached : Attachment
  description_value : Option String
deriving DecidableEq, Repr

/-- Modelled from the spec: `FieldDescriptor` (spec section 3). -/
structure FieldDescriptor where
  field_name : String
  schema_description : Option String
deriving DecidableEq, Repr

/-- Modelled from the spec: `TableDescriptor` (spec section 3). -/
structure TableDescriptor where
  table_id : String
  schema_description : Option String
  fields : List FieldDescriptor
deriving DecidableEq, Repr

/-- The tag-side value the engine reads for an attachment point out of the
`TagValue` list `readTable` produced: the first tag attached there, if any. -/
def tagLookup (tags : List TagValue) (ap : Attachment) : Option String :=
  (tags.find? fun tv => tv.attached == ap).bind TagValue.description_value

/-- Modelled from the spec: `reconcile(TableDescriptor, [TagValue]) ->
[SyncDecision]` (spec section 4.3): one decision for the table itself and one
per field. -/
def reconcile (d : TableDescriptor) (tags : List TagValue) : List SyncDecision :=
  reconcileEntity d.schema_description (tagLookup tags (.table d.table_id)) ::
    d.fields.map fun f =>
      reconcileEntity f.schema_description (tagLookup tags (.field d.table_id f.field_name))

theorem find?_eq_of_perm {l l' : List α} {p : α → Bool} (h : l.Perm l')
    (hu : ∀ a ∈ l, ∀ b ∈ l, p a = true → p b = true → a = b) :
    l.find? p = l'.find? p := by
  cases hfind : l.find? p with
  | none =>
    cases hfind' : l'.find? p with
    | none => rfl
    | some b =>
      have hb : b ∈ l := h.mem_iff.mpr (List.mem_of_find?_eq_some hfind')
      exact absurd (List.find?_some hfind') (List.find?_eq_none.mp hfind b hb)
  | some a =>
    have hpa := List.find?_some hfind
    have hmem' : a ∈ l' := h.mem_iff.mp (List.mem_of_find?_eq_some hfind)
    cases hfind' : l'.find? p with
    | none => exact absurd hpa (List.find?_eq_none.mp hfind' a hmem')
    | some b =>
      have hpb := List.find?_some hfind'
      have hbl : b ∈ l := h.mem_iff.mpr (List.mem_of_find?_eq_some hfind')
      rw [hu a (List.mem_of_find?_eq_some hfind) b hbl hpa hpb]

theorem tagLookup_eq_of_perm {tags tags' : List TagValue} (hperm : tags.Perm tags')
    (huniq : tags.Pairwise fun a b => a.attached ≠ b.attached) (ap : Attachment) :
    tagLookup tags ap = tagLookup tags' ap := by
  unfold tagLookup
  congr 1
  apply find?_eq_of_perm hperm
  intro a ha b hb hpa hpb
  by_contra hne
  have hsymm : Symmetric fun a b : TagValue => a.attached ≠ b.attached :=
    fun x y hxy he => hxy he.symm
  have hr : a.attached ≠ b.attached := List.Pairwise.forall hsymm huniq ha hb hne
  have ha' : a.attached = ap := by simpa using hpa
  have hb' : b.attached = ap := by simpa using hpb
  exact hr (ha'.trans hb'.symm)

/-- C8: Determinism of reconciliation: `reconcile` is a pure function of its
two inputs — two invocations on the same descriptor and the same tag-value
pair list give the same decisions — and it does not depend on the order in
which the tag store returned (wrote) the tags: any permutation of a
duplicate-free `TagValue` list yields the same decision list. -/
theorem reconcile_deterministic (d : TableDescriptor) (tags tags' : List TagValue)
    (hperm : tags.Perm tags')
    (huniq : tags.Pairwise fun a b => a.attached ≠ b.attached) :
    reconcile d tags = reconcile d tags' := by
  have hl := tagLookup_eq_of_perm hperm huniq
  simp only [reconcile, hl]

/-- Witness for C8: a two-element tag list and its transposition give the same
decisions. -/
theorem reconcile_deterministic_witness :
    reconcile ⟨"orders", some "tbl", [⟨"amount", none⟩]⟩
        [⟨.table "orders", some "x"⟩, ⟨.field "orders" "amount", some "y"⟩]
      = reconcile ⟨"orders", some "tbl", [⟨"amount", none⟩]⟩
        [⟨.field "orders" "amount", some "y"⟩, ⟨.table "orders", some "x"⟩] :=
  reconcile_deterministic ⟨"orders", some "tbl", [⟨"amount", none⟩]⟩
    [⟨.table "orders", some "x"⟩, ⟨.field "orders" "amount", some "y"⟩]
    [⟨.field "orders" "amount", some "y"⟩, ⟨.table "orders", some "x"⟩]
    (List.Perm.swap (⟨.field "orders" "amount", some "y"⟩ : TagValue)
      (⟨.table "orders", some "x"⟩ : TagValue) [])
    (by decide)

/-! ### Failure isolation (C5) -/

theorem runTables_length (ids : List String) (s : DatasetState) :
    (runTables s ids).2.length = ids.length := by
  induction ids generalizing s with
  | nil => rfl
  | cons id0 rest ih =>
    cases hf : findTable s id0 with
    | none =>
      simp only [runTables, hf, List.length_cons]
      rw [ih s]
    | some t =>
      simp only [runTables, hf, List.length_cons]
      rw [ih _]

theorem runTables_outcome (ids : List String) (s : DatasetState)
    (i : Nat) (id : String) (hid : ids.get? i = some id) :
    ((findTable s id).isSome = false →
      (runTables s ids).2.get? i = some (.failure id .TableNotFound)) ∧
    ((findTable s id).isSome = true →
      ∃ tw fw, (runTables s ids).2.get? i = some (.success id tw fw)) := by
  induction ids generalizing s i with
  | nil => cases hid
  | cons id0 rest ih =>
    cases i with
    | zero =>
      have hid0 : id0 = id := Option.some.inj hid
      subst hid0
      cases hf : findTable s id0 with
      | none =>
        constructor
        · intro _
          simp only [runTables, hf, List.get?]
        · intro hsome
          simp at hsome
      | some t =>
        constructor
        · intro hnone
          simp at hnone
        · intro _
          exact ⟨tableWriteCount t, fieldWriteCount t, by simp only [runTables, hf, List.get?]⟩
    | succ j =>
      have hid' : rest.get? j = some id := hid
      cases hf : findTable s id0 with
      | none =>
        obtain ⟨l1, l2⟩ := ih s j hid'
        constructor
        · intro hnone
          simp only [runTables, hf, List.get?_cons_succ]
          exact l1 hnone
        · intro hsome
          simp only [runTables, hf, List.get?_cons_succ]
          exact l2 hsome
      | some t =>
        have hiso := findTable_updateTable_isSome s id0 hf id
        obtain ⟨l1, l2⟩ := ih (updateTable s id0 (syncTable t)) j hid'
        constructor
        · intro hnone
          simp only [runTables, hf, List.get?_cons_succ]
          exact l1 (by rw [hiso]; exact hnone)
        · intro hsome
          simp only [runTables, hf, List.get?_cons_succ]
          exact l2 (by rw [hiso]; exact hsome)

/-- C5: Per-table failure isolation: every table id of the batch yields
exactly one outcome, in request order (so no error aborts the batch and no
failure is silently swallowed); an id whose read fails (`TableNotFound`) is
recorded as failed, and every id whose table exists is still processed and
recorded as a success. -/
theorem run_failure_isolation (s : DatasetState) (ids : List String) :
    (run s ids).2.outcomes.length = ids.length ∧
    ∀ i id, ids.get? i = some id →
      ((findTable s id).isSome = false →
        (run s ids).2.outcomes.get? i = some (.failure id .TableNotFound)) ∧
      ((findTable s id).isSome = true →
        ∃ tw fw, (run s ids).2.outcomes.get? i = some (.success id tw fw)) := by
  refine ⟨runTables_length ids s, ?_⟩
  intro i id hid
  exact runTables_outcome ids s i id hid

/-- Witness for C5: a batch of a missing table followed by an existing one:
the first is reported failed, the second still succeeds. -/
theorem run_failure_isolation_witness :
    (run ⟨[⟨"a", some "desc", none, []⟩]⟩ ["missing", "a"]).2.outcomes.length = 2 ∧
    (run ⟨[⟨"a", some "desc", none, []⟩]⟩ ["missing", "a"]).2.outcomes.get? 0
      = some (.failure "missing" .TableNotFound) ∧
    ∃ tw fw, (run ⟨[⟨"a", some "desc", none, []⟩]⟩ ["missing", "a"]).2.outcomes.get? 1
      = some (.success "a" tw fw) :=
  have h := run_failure_isolation ⟨[⟨"a", some "desc", none, []⟩]⟩ ["missing", "a"]
  ⟨h.1, (h.2 0 "missing" rfl).1 (by decide), (h.2 1 "a" rfl).2 (by decide)⟩

/-! ### No deletion / no blanking (C7) -/

/-- What one sync cycle may never do to a field: rename it, delete its tag, or
blank a present description on either side. -/
def fieldPreserved (f g : FieldState) : Prop :=
  g.name = f.name ∧
  (f.tag.isSome = true → g.tag.isSome = true) ∧
  ((normVal f.schemaDesc).isSome = true → (normVal g.schemaDesc).isSome = true) ∧
  ((normVal (tagDesc f.tag)).isSome = true → (normVal (tagDesc g.tag)).isSome = true)

/-- The table-level analogue of `fieldPreserved`, extended pointwise to the
table's fields. -/
def tablePreserved (t u : TableState) : Prop :=
  u.id = t.id ∧
  (t.tableTag.isSome = true → u.tableTag.isSome = true) ∧
  ((normVal t.schemaDesc).isSome = true → (normVal u.schemaDesc).isSome = true) ∧
  ((normVal (tagDesc t.tableTag)).isSome = true →
    (normVal (tagDesc u.tableTag)).isSome = true) ∧
  u.fields.length = t.fields.length ∧
  ∀ i fi gi, t.fields.get? i = some fi → u.fields.get? i = some gi → fieldPreserved fi gi

/-- The dataset-level analogue, pointwise over the tables. -/
def statePreserved (s s' : DatasetState) : Prop :=
  s'.tables.length = s.tables.length ∧
  ∀ i t u, s.tables.get? i = some t → s'.tables.get? i = some u → tablePreserved t u

theorem fieldPreserved_refl (f : FieldState) : fieldPreserved f f :=
  ⟨rfl, id, id, id⟩

theorem tablePreserved_refl (t : TableState) : tablePreserved t t :=
  ⟨rfl, id, id, id, rfl, fun _ fi _ h1 h2 =>
    Option.some.inj (h1.symm.trans h2) ▸ fieldPreserved_refl fi⟩

theorem statePreserved_refl (s : DatasetState) : statePreserved s s :=
  ⟨rfl, fun _ t _ h1 h2 => Option.some.inj (h1.symm.trans h2) ▸ tablePreserved_refl t⟩

theorem fieldPreserved_trans {f g h : FieldState}
    (a : fieldPreserved f g) (b : fieldPreserved g h) : fieldPreserved f h :=
  ⟨b.1.trans a.1, fun x => b.2.1 (a.2.1 x), fun x => b.2.2.1 (a.2.2.1 x),
   fun x => b.2.2.2 (a.2.2.2 x)⟩

theorem tablePreserved_trans {t u v : TableState}
    (a : tablePreserved t u) (b : tablePreserved u v) : tablePreserved t v := by
  refine ⟨b.1.trans a.1, fun x => b.2.1 (a.2.1 x), fun x => b.2.2.1 (a.2.2.1 x),
    fun x => b.2.2.2.1 (a.2.2.2.1 x), b.2.2.2.2.1.trans a.2.2.2.2.1, ?_⟩
  intro i fi gi h1 h2
  cases hm : u.fields.get? i with
  | none =>
    have hlen := List.get?_eq_none.mp hm
    rw [a.2.2.2.2.1] at hlen
    have : i < t.fields.length := by
      by_contra hc
      rw [List.get?_eq_none.mpr (Nat.le_of_not_lt hc)] at h1
      cases h1
    omega
  | some mi =>
    exact fieldPreserved_trans (a.2.2.2.2.2 i fi mi h1 hm) (b.2.2.2.2.2 i mi gi hm h2)

theorem statePreserved_trans {s s' s'' : DatasetState}
    (a : statePreserved s s') (b : statePreserved s' s'') : statePreserved s s'' := by
  refine ⟨b.1.trans a.1, ?_⟩
  intro i t u h1 h2
  cases hm : s'.tables.get? i with
  | none =>
    have hlen := List.get?_eq_none.mp hm
    rw [a.1] at hlen
    have : i < s.tables.length := by
      by_contra hc
      rw [List.get?_eq_none.mpr (Nat.le_of_not_lt hc)] at h1
      cases h1
    omega
  | some mi =>
    exact tablePreserved_trans (a.2 i t mi h1 hm) (b.2 i mi u hm h2)

theorem fieldPreserved_syncField (f : FieldState) : fieldPreserved f (syncField f) := by
  refine ⟨rfl, ?_, ?_, ?_⟩
  · exact fun h => syncEntity_tag_isSome h
  · intro h
    show (normVal (syncEntity f.schemaDesc f.tag).1).isSome = true
    rw [syncEntity_schema_present h]
    exact h
  · exact fun h => syncEntity_tag_present h

theorem tablePreserved_syncTable (t : TableState) : tablePreserved t (syncTable t) := by
  refine ⟨syncTable_id t, ?_, ?_, ?_, ?_, ?_⟩
  · exact fun h => syncEntity_tag_isSome h
  · intro h
    show (normVal (syncEntity t.schemaDesc t.tableTag).1).isSome = true
    rw [syncEntity_schema_present h]
    exact h
  · exact fun h => syncEntity_tag_present h
  · simp [syncTable_fields]
  · intro i fi gi h1 h2
    rw [syncTable_fields, List.get?_map, h1] at h2
    rw [← Option.some.inj h2]
    exact fieldPreserved_syncField fi

theorem updateFirst_get? (p : α → Bool) (x : α) (l : List α) (i : Nat) :
    (updateFirst p x l).get? i = l.get? i ∨
    ((updateFirst p x l).get? i = some x ∧
      ∃ a, l.get? i = some a ∧ l.find? p = some a) := by
  induction l generalizing i with
  | nil => exact Or.inl rfl
  | cons a as ih =>
    by_cases hp : p a
    · cases i with
      | zero =>
        refine Or.inr ⟨?_, a, rfl, List.find?_cons_of_pos _ hp⟩
        simp only [updateFirst, if_pos hp, List.get?_cons_zero]
      | succ j =>
        refine Or.inl ?_
        simp only [updateFirst, if_pos hp, List.get?_cons_succ]
    · cases i with
      | zero =>
        refine Or.inl ?_
        simp only [updateFirst, if_neg hp, List.get?_cons_zero]
      | succ j =>
        rcases ih j with h | ⟨h1, a', h2, h3⟩
        · refine Or.inl ?_
          simp only [updateFirst, if_neg hp, List.get?_cons_succ]
          exact h
        · refine Or.inr ⟨?_, a', ?_, ?_⟩
          · simp only [updateFirst, if_neg hp, List.get?_cons_succ]
            exact h1
          · simp only [List.get?_cons_succ]
            exact h2
          · rw [List.find?_cons_of_neg _ (by simp [hp])]
            exact h3

theorem statePreserved_updateTable (s : DatasetState) (id' : String) {t : TableState}
    (hfind : findTable s id' = some t) :
    statePreserved s (updateTable s id' (syncTable t)) := by
  refine ⟨updateFirst_length _ _ _, ?_⟩
  intro i a u h1 h2
  have h2' : (updateFirst (fun w => w.id == id') (syncTable t) s.tables).get? i
      = some u := h2
  rcases updateFirst_get? (fun w => w.id == id') (syncTable t) s.tables i with
    h | ⟨hx, a', ha', h3⟩
  · rw [h] at h2'
    have hau : a = u := Option.some.inj (h1.symm.trans h2')
    exact hau ▸ tablePreserved_refl a
  · have hu : u = syncTable t := Option.some.inj (h2'.symm.trans hx)
    have haa' : a = a' := Option.some.inj (h1.symm.trans ha')
    have hfind' : s.tables.find? (fun w => w.id == id') = some t := hfind
    have hat : a' = t := Option.some.inj (h3.symm.trans hfind')
    rw [hu, haa', hat]
    exact tablePreserved_syncTable t

theorem runTables_statePreserved (ids : List String) (s : DatasetState) :
    statePreserved s (runTables s ids).1 := by
  induction ids generalizing s with
  | nil => exact statePreserved_refl s
  | cons id0 rest ih =>
    cases hf : findTable s id0 with
    | none =>
      simp only [runTables, hf]
      exact ih s
    | some t =>
      simp only [runTables, hf]
      exact statePreserved_trans (statePreserved_updateTable s id0 hf) (ih _)

/-- C7: The engine never deletes a tag and never propagates a deletion: after
any run, every table keeps its identity and field count, every entity that
had a tag still has one, and a non-empty description on either side is never
blanked (a value absent on one side never erases the present other side). -/
theorem run_never_deletes (s : DatasetState) (ids : List String) :
    statePreserved s (run s ids).1 :=
  runTables_statePreserved ids s

/-! ### Front-end operations: `download`, `upload`, `synchronize` (C9, C10) -/

/-- Modelled from the spec: the `tables` parameter of the public operations.
The notebooks document that `list_of_tables` "can be a single string
specifying a table ID" in place of a list of table-id strings. -/
inductive TablesArg where
  | one (tableId : String)
  | many (tableIds : List String)
deriving DecidableEq, Repr

/-- The list of table ids a `tables` argument denotes: a single bare string
names one table. -/
def tablesOf : TablesArg → List String
  | .one id => [id]
  | .many ids => ids

/-- Modelled from the spec: the local filesystem the Excel workspace lives on,
as the set of existing paths. -/
structure LocalFS where
  paths : List String
deriving DecidableEq, Repr

/-- The folder holding a dataset's workspace file: named after the dataset id
(upload notebook, initialisation cell). -/
def workspaceFolder (dsId : String) : String := dsId

/-- The Excel workspace file of a dataset: the dataset id plus `.xlsx`,
inside the folder of the same name. -/
def workspaceFile (dsId : String) : String := dsId ++ "/" ++ dsId ++ ".xlsx"

/-- Error when the workspace file of the requested dataset does not exist. -/
inductive UploadError where
  | WorkbookNotFound
deriving DecidableEq, Repr

/-- Modelled from the spec: the `upload` operation of `bqdc.py` (its code is
not under src/): it reads the workspace file of the dataset, uploads the
requested tables' metadata, and then — per the upload notebook, "the file and
its parent folder are automatically deleted on purpose" — removes both from
the local filesystem.  Returns the remaining filesystem and the uploaded
table ids. -/
def upload (fs : LocalFS) (dsId : String) (tables : TablesArg) :
    Except UploadError (LocalFS × List String) :=
  if workspaceFile dsId ∈ fs.paths then
    .ok (⟨fs.paths.filter fun p => !(p == workspaceFile dsId || p == workspaceFolder dsId)⟩,
      tablesOf tables)
  else
    .error .WorkbookNotFound

/-- Modelled from the spec: the `download` operation: stores, for each
requested table, its current cross-store snapshot into the workbook (modelled
as the list of snapshots the sheets are built from). -/
def download (s : DatasetState) (tables : TablesArg) : List (Option TableState) :=
  (tablesOf tables).map (findTable s)

/-- Modelled from the spec: the `synchronize` operation: runs the engine over
the requested tables. -/
def synchronize (s : DatasetState) (tables : TablesArg) : DatasetState × RunReport :=
  run s (tablesOf tables)

/-- C9: After every (successful) invocation of `upload`, the Excel workspace
file it read from and that file's parent folder are deleted from the local
filesystem, so any subsequent `upload` for the dataset fails until a fresh
download recreates the file. -/
theorem upload_deletes_workspace (fs : LocalFS) (dsId : String) (tables : TablesArg)
    (h : workspaceFile dsId ∈ fs.paths) :
    ∃ fs' uploaded, upload fs dsId tables = .ok (fs', uploaded) ∧
      workspaceFile dsId ∉ fs'.paths ∧
      workspaceFolder dsId ∉ fs'.paths ∧
      ∀ tables', upload fs' dsId tables' = .error .WorkbookNotFound := by
  refine ⟨⟨fs.paths.filter
      fun p => !(p == workspaceFile dsId || p == workspaceFolder dsId)⟩,
    tablesOf tables, ?_, ?_, ?_, ?_⟩
  · simp only [upload, if_pos h]
  · intro hmem
    have := (List.mem_filter.mp hmem).2
    simp at this
  · intro hmem
    have := (List.mem_filter.mp hmem).2
    simp at this
  · intro tables'
    have hnot : workspaceFile dsId ∉ (LocalFS.mk (fs.paths.filter
        fun p => !(p == workspaceFile dsId || p == workspaceFolder dsId))).paths := by
      intro hmem
      have := (List.mem_filter.mp hmem).2
      simp at this
    simp only [upload, if_neg hnot]

/-- Witness for C9 at the concrete filesystem holding the folder `ds` and the
workbook `ds/ds.xlsx`. -/
theorem upload_deletes_workspace_witness :
    ∃ fs' uploaded, upload ⟨["ds", "ds/ds.xlsx"]⟩ "ds" (.many []) = .ok (fs', uploaded) ∧
      workspaceFile "ds" ∉ fs'.paths ∧
      workspaceFolder "ds" ∉ fs'.paths ∧
      ∀ tables', upload fs' "ds" tables' = .error .WorkbookNotFound :=
  upload_deletes_workspace ⟨["ds", "ds/ds.xlsx"]⟩ "ds" (.many []) (by decide)

/-- C10: The `tables` parameter of `download`, `upload` and `synchronize`
accepts a single bare table-id string and treats it the same as the
one-element list of that id. -/
theorem tables_arg_single (s : DatasetState) (fs : LocalFS) (dsId id : String) :
    synchronize s (.one id) = synchronize s (.many [id]) ∧
    download s (.one id) = download s (.many [id]) ∧
    upload fs dsId (.one id) = upload fs dsId (.many [id]) :=
  ⟨rfl, rfl, rfl⟩

end Bqdc
